import Mathlib

/-!
Verification of the natsec-inspector sidecar (`server.js`).

The development shallowly embeds the path-validation logic
(`validateTemplatePath`), the FDF serializer (`buildFdf`), and the
PDF-fill orchestration (`fillPdf`, both the original and the revised
version) together with the relevant POSIX semantics of Node's `path`
module (`normalize`, `join`, `resolve`, `isAbsolute`).

Strings are modelled as `List Char`; a helper `str` converts Lean
string literals.  Filesystem state is modelled as an association list
from paths to file contents, and the subprocess and I/O outcomes of a
fill invocation are supplied by an explicit environment, so every
control path of the code becomes a total function of that environment.
-/

set_option autoImplicit false

namespace NatsecInspector

/-- Character-list strings, the base representation of this development. -/
abbrev Str := List Char

/-- Convert a Lean string literal to the character-list representation. -/
def str (s : String) : Str := s.data

/-- A path segment: the characters between two `/` separators. -/
abbrev Seg := List Char

/-! ## Node `path` module, POSIX flavour -/

/-- Split a character list on `/`, keeping empty segments
(the behaviour of splitting a path string on its separator). -/
def splitOnSlash : List Char → List Seg
  | [] => [[]]
  | c :: rest =>
    if c = '/' then [] :: splitOnSlash rest
    else
      match splitOnSlash rest with
      | s :: ss => (c :: s) :: ss
      | [] => [[c]]

/-- `path.isAbsolute` (POSIX): a path is absolute iff it starts with `/`. -/
def isAbsoluteP : List Char → Bool
  | [] => false
  | c :: _ => c = '/'

/-- The core of Node's `normalizeString`: process segments left to right,
skipping empty and `.` segments, resolving `..` against the accumulator
(which stores processed segments in reverse).  `ab` is `allowAboveRoot`. -/
def nrmAcc (ab : Bool) : List Seg → List Seg → List Seg
  | [], acc => acc
  | s :: rest, acc =>
    if s = [] ∨ s = ['.'] then nrmAcc ab rest acc
    else if s = ['.', '.'] then
      match acc with
      | [] => nrmAcc ab rest (if ab then [['.', '.']] else [])
      | a :: as =>
        if a = ['.', '.'] then nrmAcc ab rest (if ab then ['.', '.'] :: (a :: as) else (a :: as))
        else nrmAcc ab rest as
    else nrmAcc ab rest (s :: acc)

/-- Normalized segment sequence, in source order. -/
def normSegs (ab : Bool) (segs : List Seg) : List Seg :=
  (nrmAcc ab segs []).reverse

/-- Join segments back with `/` separators. -/
def joinSegs : List Seg → List Char
  | [] => []
  | [s] => s
  | s :: rest => s ++ '/' :: joinSegs rest

/-- `path.normalize` (POSIX): collapse `.`, `..` and repeated separators,
preserving a trailing separator, returning `.` for the empty path. -/
def normalizeP (cs : List Char) : List Char :=
  if cs = [] then ['.']
  else
    let core := normSegs (!(isAbsoluteP cs)) (splitOnSlash cs)
    let body := joinSegs core
    if body = [] then
      if isAbsoluteP cs then ['/']
      else if cs.getLast? = some '/' then ['.', '/'] else ['.']
    else
      let body2 := if cs.getLast? = some '/' then body ++ ['/'] else body
      if isAbsoluteP cs then '/' :: body2 else body2

/-- `path.join a b` (POSIX, two arguments): concatenate the non-empty
parts with `/` and normalize; all-empty input yields `.`. -/
def joinP (a b : List Char) : List Char :=
  if a = [] then (if b = [] then ['.'] else normalizeP b)
  else if b = [] then normalizeP a
  else normalizeP (a ++ '/' :: b)

/-- The canonical segment sequence of `path.resolve cwd p`:
make `p` absolute against `cwd` and normalize with `allowAboveRoot`
off. -/
def resolveSegs (cwd p : List Char) : List Seg :=
  normSegs false (splitOnSlash (if isAbsoluteP p then p else cwd ++ '/' :: p))

/-- `path.resolve cwd p` (POSIX, `cwd` assumed absolute): canonical
absolute path without trailing separator. -/
def resolveP (cwd p : List Char) : List Char :=
  let core := resolveSegs cwd p
  if core = [] then ['/'] else '/' :: joinSegs core

/-- `pat.isPrefixOf s` on raw characters: JavaScript's
`String.prototype.startsWith`. -/
def beginsWith : List Char → List Char → Bool
  | [], _ => true
  | _ :: _, [] => false
  | a :: as, b :: bs => if a = b then beginsWith as bs else false

/-- JavaScript's `s.includes('..')`: some position of `s` starts the
two-character sequence `..`. -/
def containsDotDot : List Char → Bool
  | [] => false
  | c :: rest => beginsWith ['.', '.'] (c :: rest) || containsDotDot rest

/-- `validateTemplatePath` from `server.js` (revised version):
reject empty input, normalize, reject a leading `..`, reject any
remaining `..` occurrence, reject absolute paths, then join onto the
root and require the resolved join to start (as a raw string) with the
resolved root.  Returns the joined path on acceptance. -/
def validateTemplatePath (cwd root tmpl : List Char) : Option (List Char) :=
  if tmpl = [] then none
  else
    let n := normalizeP tmpl
    if beginsWith ['.', '.'] n then none
    else if containsDotDot n then none
    else if isAbsoluteP n then none
    else
      let fullPath := joinP root n
      if beginsWith (resolveP cwd root) (resolveP cwd fullPath) then some fullPath
      else none

/-! ## Auxiliary segment predicates -/

/-- Whether a segment survives normalization when no `..` is present. -/
def keepSeg (s : Seg) : Bool := if s = [] ∨ s = ['.'] then false else true

/-- A segment that can appear in the output of absolute-path
normalization: non-empty, not `.`, not `..`, and containing no
separator. -/
def plainSeg (s : Seg) : Prop :=
  s ≠ [] ∧ s ≠ ['.'] ∧ s ≠ ['.', '.'] ∧ '/' ∉ s

/-! ## FDF serialization (`buildFdf`) -/

/-- `v.replace(/\\/g, '\\\\')`: double every backslash. -/
def replBackslash : Str → Str
  | [] => []
  | c :: r => if c = '\\' then '\\' :: '\\' :: replBackslash r else c :: replBackslash r

/-- `v.replace(/\(/g, '\\(')`: escape every opening parenthesis. -/
def replParenL : Str → Str
  | [] => []
  | c :: r => if c = '(' then '\\' :: '(' :: replParenL r else c :: replParenL r

/-- `v.replace(/\)/g, '\\)')`: escape every closing parenthesis. -/
def replParenR : Str → Str
  | [] => []
  | c :: r => if c = ')' then '\\' :: ')' :: replParenR r else c :: replParenR r

/-- `v.replace(/\r?\n/g, '\\r')`: rewrite each LF, or CR immediately
followed by LF, to the two characters `\` `r`.  A lone CR is left
untouched. -/
def replNewline : Str → Str
  | [] => []
  | c :: r =>
    if c = '\n' then '\\' :: 'r' :: replNewline r
    else if c = '\r' then
      match r with
      | e :: r2 => if e = '\n' then '\\' :: 'r' :: replNewline r2 else c :: replNewline (e :: r2)
      | [] => [c]
    else c :: replNewline r

/-- The value-escaping pipeline of `buildFdf`, in source order. -/
def escFdf (v : Str) : Str := replNewline (replParenR (replParenL (replBackslash v)))

/-- Meaning of a single escaped character in a PDF/FDF string literal. -/
def unescChar (d : Char) : Char :=
  if d = 'n' then '\n'
  else if d = 'r' then '\r'
  else if d = 't' then '\t'
  else if d = 'b' then Char.ofNat 8
  else if d = 'f' then Char.ofNat 12
  else d

/-- Un-escape a PDF/FDF string-literal body: `\n`, `\r`, `\t`, `\b`,
`\f`, `\(`, `\)` and `\\` denote the usual characters, a backslash
before an end-of-line is a line continuation, any other escaped
character denotes itself, and a raw end-of-line (CR, LF or CRLF)
reads as LF.  (Octal escapes are not modelled; the serializer never
emits a digit after a backslash.) -/
def unescFdf : Str → Str
  | [] => []
  | c :: r =>
    if c = '\\' then
      match r with
      | [] => []
      | d :: r2 =>
        if d = '\n' then unescFdf r2
        else if d = '\r' then
          match r2 with
          | e :: r3 => if e = '\n' then unescFdf r3 else unescFdf (e :: r3)
          | [] => []
        else unescChar d :: unescFdf r2
    else if c = '\r' then
      match r with
      | e :: r3 => if e = '\n' then '\n' :: unescFdf r3 else '\n' :: unescFdf (e :: r3)
      | [] => ['\n']
    else if c = '\n' then '\n' :: unescFdf r
    else c :: unescFdf r

/-- A submitted field map: keys with possibly absent (`null`/`undefined`)
values. -/
abbrev FieldMap := List (Str × Option Str)

/-- One `<< /T (key) /V (value) >>` line of the FDF body: the key is
interpolated verbatim, the value defaults to the empty string
(`fieldsObj[key] ?? ''`) and is escaped. -/
def fdfLine (k : Str) (v : Option Str) : Str :=
  str "<< /T (" ++ k ++ str ") /V (" ++ escFdf (v.getD []) ++ str ") >>\n"

/-- The concatenated `/Fields` body of the FDF document. -/
def buildFdfBody (fields : FieldMap) : Str :=
  fields.foldl (fun acc kv => acc ++ fdfLine kv.1 kv.2) []

/-- The fixed FDF preamble, including the binary-comment line. -/
def fdfHeader : Str :=
  str "%FDF-1.2\n%" ++ [Char.ofNat 226, Char.ofNat 227, Char.ofNat 207, Char.ofNat 211] ++
    str "\n1 0 obj\n<< /FDF << /Fields [\n"

/-- The fixed FDF trailer. -/
def fdfFooter : Str := str "] >> >>\nendobj\ntrailer\n<< /Root 1 0 R >>\n%%EOF"

/-- `buildFdf` from `server.js` (identical in both versions). -/
def buildFdf (fields : FieldMap) : Str := fdfHeader ++ buildFdfBody fields ++ fdfFooter

/-! ## Filesystem model and `fillPdf` -/

/-- Filesystem state: an association of paths to file contents. -/
abbrev FS := List (Str × Str)

/-- `fs.existsSync p`. -/
def fsExists (p : Str) (fs : FS) : Bool := fs.any (fun e => decide (e.1 = p))

/-- `fs.writeFileSync p c` (overwrite). -/
def fsWrite (p c : Str) (fs : FS) : FS := (p, c) :: fs.filter (fun e => decide (e.1 ≠ p))

/-- `fs.unlinkSync p` / `fs.unlink p` (removing a missing file is a no-op
here; the code only calls it behind an existence check or ignores the
error). -/
def fsUnlink (p : Str) (fs : FS) : FS := fs.filter (fun e => decide (e.1 ≠ p))

/-- `fs.readFile p`: the content when present. -/
def fsRead (p : Str) (fs : FS) : Option Str :=
  (fs.find? (fun e => decide (e.1 = p))).map (fun e => e.2)

/-- The `cleanup` closure of the revised `fillPdf`: remove each of the
two ephemeral files if it exists. -/
def cleanup (fdfPath outPath : Str) (fs : FS) : FS :=
  let fs1 := if fsExists fdfPath fs then fsUnlink fdfPath fs else fs
  if fsExists outPath fs1 then fsUnlink outPath fs1 else fs1

/-- Outcome of the `pdftk` subprocess: it either fails to start
(`error` event) or runs to completion with an exit code, possibly
having produced the output file. -/
inductive SpawnOutcome where
  | launchError (msg : Str)
  | exits (code : Nat) (outContent : Option Str)
deriving DecidableEq

/-- Environment of one `fillPdf` invocation: the wall clock at entry
(`Date.now()`), whether `writeFileSync` throws, the subprocess outcome,
and an injected `readFile` failure. -/
structure FillEnv where
  now : Nat
  writeErr : Option Str
  spawn : SpawnOutcome
  readErr : Option Str
deriving DecidableEq

/-- Result of a `fillPdf` invocation as observed by the caller.
`crashed` models an `error` event with no listener (original version
only): the promise never settles and the process dies. -/
inductive FillResult where
  | ok (bytes : Str)
  | writeFailed (msg : Str)
  | spawnFailed (msg : Str)
  | exitFailure (code : Nat)
  | readFailed (msg : Str)
  | crashed (msg : Str)
deriving DecidableEq

/-- Externally visible side effects of a fill invocation. -/
inductive Event where
  | tmpWrite
  | spawn
deriving DecidableEq

/-- `path.join(os.tmpdir(), `data_${Date.now()}.fdf`)`. -/
def fdfPathOf (now : Nat) : Str := str "/tmp/data_" ++ (toString now).data ++ str ".fdf"

/-- `path.join(os.tmpdir(), `out_${Date.now()}.pdf`)`. -/
def outPathOf (now : Nat) : Str := str "/tmp/out_" ++ (toString now).data ++ str ".pdf"

/-- The pair of ephemeral paths an invocation uses: a function of the
wall clock alone. -/
def fillTempPaths (env : FillEnv) : Str × Str := (fdfPathOf env.now, outPathOf env.now)

/-- The revised `fillPdf` (current `server.js`): write the FDF inside
`try`/`catch`, handle the `error` event, and run `cleanup` on every
exit path (the write failure, the launch failure, the non-zero exit,
and before settling after the output read). -/
def fillPdfNew (env : FillEnv) (templatePath : Str) (data : FieldMap) (fs : FS) :
    FillResult × FS × List Event :=
  let fdfPath := (fillTempPaths env).1
  let outPath := (fillTempPaths env).2
  match env.writeErr with
  | some msg => (.writeFailed msg, cleanup fdfPath outPath fs, [.tmpWrite])
  | none =>
    let fs1 := fsWrite fdfPath (buildFdf data) fs
    match env.spawn with
    | .launchError msg =>
      (.spawnFailed (str "pdftk spawn failed: " ++ msg), cleanup fdfPath outPath fs1,
        [.tmpWrite, .spawn])
    | .exits code outContent =>
      let fs2 := match outContent with
        | some c => fsWrite outPath c fs1
        | none => fs1
      if code ≠ 0 then (.exitFailure code, cleanup fdfPath outPath fs2, [.tmpWrite, .spawn])
      else
        let rr : Option Str := match env.readErr with
          | some _ => none
          | none => fsRead outPath fs2
        let res : FillResult := match rr with
          | none => .readFailed (match env.readErr with
            | some m => m
            | none => str "ENOENT")
          | some c => .ok c
        (res, cleanup fdfPath outPath fs2, [.tmpWrite, .spawn])

/-- The original `fillPdf` (previous `server.js`): no `try`/`catch`
around the write, no `error` listener on the subprocess, and per-file
`fs.unlink` calls only on the `close` path. -/
def fillPdfOrig (env : FillEnv) (templatePath : Str) (data : FieldMap) (fs : FS) :
    FillResult × FS × List Event :=
  let fdfPath := (fillTempPaths env).1
  let outPath := (fillTempPaths env).2
  match env.writeErr with
  | some msg => (.writeFailed msg, fs, [.tmpWrite])
  | none =>
    let fs1 := fsWrite fdfPath (buildFdf data) fs
    match env.spawn with
    | .launchError msg => (.crashed msg, fs1, [.tmpWrite, .spawn])
    | .exits code outContent =>
      let fs2 := match outContent with
        | some c => fsWrite outPath c fs1
        | none => fs1
      let fs3 := fsUnlink fdfPath fs2
      if code ≠ 0 then (.exitFailure code, fs3, [.tmpWrite, .spawn])
      else
        let rr : Option Str := match env.readErr with
          | some _ => none
          | none => fsRead outPath fs3
        let res : FillResult := match rr with
          | none => .readFailed (match env.readErr with
            | some m => m
            | none => str "ENOENT")
          | some c => .ok c
        (res, fsUnlink outPath fs3, [.tmpWrite, .spawn])

/-! ## HTTP handlers (revised `server.js`) -/

/-- `GET /fields`: missing or invalid template parameter is rejected
with 400 before any I/O; a validated but missing file gives 404; only
then is the field-extraction subprocess spawned. -/
def fieldsHandler (cwd root : Str) (template : Option Str) (tmplExists : Bool)
    (extractRes : Option (List Str)) : Nat × List Event :=
  match template with
  | none => (400, [])
  | some t =>
    if t = [] then (400, [])
    else
      match validateTemplatePath cwd root t with
      | none => (400, [])
      | some _p =>
        if tmplExists then
          match extractRes with
          | some _fields => (200, [.spawn])
          | none => (500, [.spawn])
        else (404, [])

/-- `POST /submit`: same boundary checks, then `fillPdf`; its result is
mapped to 200 with the PDF bytes or 500. -/
def submitHandler (cwd root : Str) (template : Option Str) (tmplExists : Bool)
    (env : FillEnv) (body : FieldMap) (fs : FS) : Nat × FS × List Event :=
  match template with
  | none => (400, fs, [])
  | some t =>
    if t = [] then (400, fs, [])
    else
      match validateTemplatePath cwd root t with
      | none => (400, fs, [])
      | some p =>
        if tmplExists then
          let r := fillPdfNew env p body fs
          (match r.1 with
            | .ok _ => 200
            | _ => 500, r.2.1, r.2.2)
        else (404, fs, [])

/-! ## Concrete sanity checks on the embedding -/

example : str "ab" = ['a', 'b'] := rfl
example : normalizeP (str "a/../b") = str "b" := by decide
example : normalizeP (str "../x") = str "../x" := by decide
example : normalizeP (str "a/../../b") = str "../b" := by decide
example : normalizeP (str "") = str "." := by decide
example : normalizeP (str "a//b/") = str "a/b/" := by decide
example : normalizeP (str "a/..") = str "." := by decide
example : normalizeP (str "/etc//passwd") = str "/etc/passwd" := by decide
example : resolveP (str "/cwd") (str "/a/b/../c/") = str "/a/c" := by decide
example : resolveP (str "/cwd") (str "x") = str "/cwd/x" := by decide
example : joinP (str "/templates") (str "b") = str "/templates/b" := by decide
example : validateTemplatePath (str "/cwd") (str "/templates") (str "a/../b") =
    some (str "/templates/b") := by decide
example : validateTemplatePath (str "/cwd") (str "/templates") (str "../x") = none := by decide
example : validateTemplatePath (str "/cwd") (str "/templates") (str "/etc/passwd") = none := by
  decide
example : validateTemplatePath (str "/cwd") (str "/templates") (str "file..pdf") = none := by
  decide
example : validateTemplatePath (str "/cwd") (str "/templates") (str "forms/fire.pdf") =
    some (str "/templates/forms/fire.pdf") := by decide

example : escFdf (str "a(b)c\\d") = str "a\\(b\\)c\\\\d" := by decide
example : unescFdf (escFdf (str "a(b)c\\d")) = str "a(b)c\\d" := by decide
example : escFdf ['\n'] = ['\\', 'r'] := by decide
example : unescFdf (escFdf ['\n']) = ['\r'] := by decide
example : escFdf ['\r', '\n'] = ['\\', 'r'] := by decide
example : escFdf ['\r'] = ['\r'] := by decide
example : fdfLine (str "Name") none = str "<< /T (Name) /V () >>\n" := by decide

/-! ## Step lemmas -/

theorem splitOnSlash_cons_slash (rest : List Char) :
    splitOnSlash ('/' :: rest) = [] :: splitOnSlash rest := by
  rw [splitOnSlash.eq_def]
  dsimp only
  rw [if_pos rfl]

theorem splitOnSlash_cons_other {c : Char} {rest : List Char} {s0 : Seg} {ss0 : List Seg}
    (h : c ≠ '/') (hs : splitOnSlash rest = s0 :: ss0) :
    splitOnSlash (c :: rest) = (c :: s0) :: ss0 := by
  rw [splitOnSlash.eq_def]
  dsimp only
  rw [if_neg h, hs]

theorem containsDotDot_cons (c : Char) (rest : List Char) :
    containsDotDot (c :: rest) =
      (beginsWith ['.', '.'] (c :: rest) || containsDotDot rest) := by
  rw [containsDotDot.eq_def]

theorem beginsWith_cons (a b : Char) (as bs : List Char) :
    beginsWith (a :: as) (b :: bs) = if a = b then beginsWith as bs else false := by
  rw [beginsWith.eq_def]

theorem nrmAcc_cons_skip {s : Seg} (h : s = [] ∨ s = ['.']) (ab : Bool)
    (rest acc : List Seg) : nrmAcc ab (s :: rest) acc = nrmAcc ab rest acc := by
  rw [nrmAcc.eq_def]
  dsimp only
  rw [if_pos h]

theorem nrmAcc_cons_push {s : Seg} (h1 : ¬(s = [] ∨ s = ['.'])) (h2 : s ≠ ['.', '.'])
    (ab : Bool) (rest acc : List Seg) :
    nrmAcc ab (s :: rest) acc = nrmAcc ab rest (s :: acc) := by
  rw [nrmAcc.eq_def]
  dsimp only
  rw [if_neg h1, if_neg h2]

theorem nrmAcc_cons_dotdot_nil (ab : Bool) (rest : List Seg) :
    nrmAcc ab (['.', '.'] :: rest) [] =
      nrmAcc ab rest (if ab then [['.', '.']] else []) := by
  rw [nrmAcc.eq_def]
  dsimp only
  rw [if_neg (by decide), if_pos rfl]

theorem nrmAcc_cons_dotdot_pop {a : Seg} (ha : a ≠ ['.', '.']) (ab : Bool)
    (rest as : List Seg) :
    nrmAcc ab (['.', '.'] :: rest) (a :: as) = nrmAcc ab rest as := by
  rw [nrmAcc.eq_def]
  dsimp only
  rw [if_neg (by decide), if_pos rfl, if_neg ha]

theorem nrmAcc_cons_dotdot_dd (ab : Bool) (rest as : List Seg) :
    nrmAcc ab (['.', '.'] :: rest) (['.', '.'] :: as) =
      nrmAcc ab rest (if ab then ['.', '.'] :: ['.', '.'] :: as else ['.', '.'] :: as) := by
  rw [nrmAcc.eq_def]
  dsimp only
  rw [if_neg (by decide), if_pos rfl, if_pos rfl]

/-! ## Splitting and joining -/

theorem splitOnSlash_ne_nil (cs : List Char) : splitOnSlash cs ≠ [] := by
  cases cs with
  | nil => simp [splitOnSlash]
  | cons c rest =>
    by_cases hc : c = '/'
    · subst hc
      rw [splitOnSlash_cons_slash]
      simp
    · rcases hs : splitOnSlash rest with _ | ⟨s, ss⟩
      · exact absurd hs (splitOnSlash_ne_nil rest)
      · rw [splitOnSlash_cons_other hc hs]
        simp

theorem splitOnSlash_cons_form (cs : List Char) :
    ∃ s ss, splitOnSlash cs = s :: ss := by
  rcases hs : splitOnSlash cs with _ | ⟨s, ss⟩
  · exact absurd hs (splitOnSlash_ne_nil cs)
  · exact ⟨s, ss, rfl⟩

theorem splitOnSlash_append (a b : List Char) :
    splitOnSlash (a ++ '/' :: b) = splitOnSlash a ++ splitOnSlash b := by
  induction a with
  | nil =>
    rw [List.nil_append, splitOnSlash_cons_slash]
    rfl
  | cons c a2 ih =>
    by_cases hc : c = '/'
    · subst hc
      rw [List.cons_append, splitOnSlash_cons_slash, ih, splitOnSlash_cons_slash,
        List.cons_append]
    · obtain ⟨s0, ss0, hs⟩ := splitOnSlash_cons_form a2
      rw [List.cons_append, splitOnSlash_cons_other hc (by rw [ih, hs]; rfl),
        splitOnSlash_cons_other hc hs, List.cons_append]
      rfl

theorem splitOnSlash_head_pre (cs : List Char) {s : Seg} {ss : List Seg}
    (h : splitOnSlash cs = s :: ss) : ∃ t, cs = s ++ t := by
  induction cs generalizing s ss with
  | nil =>
    rw [show splitOnSlash [] = [[]] from rfl] at h
    obtain ⟨h1, _⟩ := List.cons.injEq _ _ _ _ ▸ h
    exact ⟨[], by simp [← h1]⟩
  | cons c rest ih =>
    by_cases hc : c = '/'
    · subst hc
      rw [splitOnSlash_cons_slash] at h
      obtain ⟨h1, _⟩ := List.cons.injEq _ _ _ _ ▸ h
      exact ⟨'/' :: rest, by simp [← h1]⟩
    · obtain ⟨s0, ss0, hs⟩ := splitOnSlash_cons_form rest
      rw [splitOnSlash_cons_other hc hs] at h
      obtain ⟨h1, _⟩ := List.cons.injEq _ _ _ _ ▸ h
      obtain ⟨t, ht⟩ := ih hs
      exact ⟨t, by rw [← h1, List.cons_append, ← ht]⟩

theorem containsDotDot_cons_of_tail {rest : List Char} (c : Char)
    (h : containsDotDot rest = true) : containsDotDot (c :: rest) = true := by
  rw [containsDotDot_cons, h, Bool.or_true]

theorem mem_splitOnSlash_dotdot {cs : List Char}
    (h : ['.', '.'] ∈ splitOnSlash cs) : containsDotDot cs = true := by
  induction cs with
  | nil => simp [splitOnSlash] at h
  | cons c rest ih =>
    by_cases hc : c = '/'
    · subst hc
      rw [splitOnSlash_cons_slash] at h
      rcases List.mem_cons.mp h with h1 | h2
      · exact absurd h1.symm (by decide)
      · exact containsDotDot_cons_of_tail '/' (ih h2)
    · obtain ⟨s0, ss0, hs⟩ := splitOnSlash_cons_form rest
      rw [splitOnSlash_cons_other hc hs] at h
      rcases List.mem_cons.mp h with h1 | h2
      · obtain ⟨hcd, hsd⟩ := List.cons.injEq _ _ _ _ ▸ h1.symm
        obtain ⟨t, ht⟩ := splitOnSlash_head_pre rest hs
        subst hcd
        subst hsd
        rw [ht]
        show containsDotDot ('.' :: '.' :: t) = true
        rw [containsDotDot_cons, beginsWith_cons, if_pos rfl, beginsWith_cons, if_pos rfl]
        rfl
      · exact containsDotDot_cons_of_tail c (ih (hs ▸ List.mem_cons_of_mem s0 h2))

theorem mem_splitOnSlash_no_slash {cs : List Char} {s : Seg}
    (h : s ∈ splitOnSlash cs) : '/' ∉ s := by
  induction cs generalizing s with
  | nil =>
    rw [show splitOnSlash [] = [[]] from rfl] at h
    rcases List.mem_singleton.mp h with h1
    simp [h1]
  | cons c rest ih =>
    by_cases hc : c = '/'
    · subst hc
      rw [splitOnSlash_cons_slash] at h
      rcases List.mem_cons.mp h with h1 | h2
      · simp [h1]
      · exact ih h2
    · obtain ⟨s0, ss0, hs⟩ := splitOnSlash_cons_form rest
      rw [splitOnSlash_cons_other hc hs] at h
      rcases List.mem_cons.mp h with h1 | h2
      · subst h1
        intro hm
        rcases List.mem_cons.mp hm with h3 | h4
        · exact hc h3.symm
        · exact ih (hs ▸ List.mem_cons_self s0 ss0) h4
      · exact ih (hs ▸ List.mem_cons_of_mem s0 h2)

theorem splitOnSlash_no_slash_id {s : List Char} (h : '/' ∉ s) :
    splitOnSlash s = [s] := by
  induction s with
  | nil => rfl
  | cons c rest ih =>
    have hc : c ≠ '/' := fun he => h (he ▸ List.mem_cons_self c rest)
    have hr : '/' ∉ rest := fun hm => h (List.mem_cons_of_mem c hm)
    rw [splitOnSlash_cons_other hc (ih hr)]

theorem splitOnSlash_joinSegs {L : List Seg} (hne : L ≠ [])
    (h : ∀ s ∈ L, '/' ∉ s) : splitOnSlash (joinSegs L) = L := by
  induction L with
  | nil => exact absurd rfl hne
  | cons s rest ih =>
    cases rest with
    | nil => exact splitOnSlash_no_slash_id (h s (List.mem_cons_self s []))
    | cons b t =>
      rw [show joinSegs (s :: b :: t) = s ++ '/' :: joinSegs (b :: t) from rfl]
      rw [splitOnSlash_append, splitOnSlash_no_slash_id (h s (List.mem_cons_self s _)),
        ih (by simp) (fun x hx => h x (List.mem_cons_of_mem s hx))]
      rfl

theorem joinSegs_ne_nil {L : List Seg} (hne : L ≠ []) (h : ∀ s ∈ L, s ≠ []) :
    joinSegs L ≠ [] := by
  cases L with
  | nil => exact absurd rfl hne
  | cons s rest =>
    cases rest with
    | nil => exact h s (List.mem_cons_self s [])
    | cons b t =>
      rw [show joinSegs (s :: b :: t) = s ++ '/' :: joinSegs (b :: t) from rfl]
      simp

theorem joinSegs_cons2 (s b : Seg) (t : List Seg) :
    joinSegs (s :: b :: t) = s ++ '/' :: joinSegs (b :: t) := rfl

theorem joinSegs_append {A B : List Seg} (ha : A ≠ []) (hb : B ≠ []) :
    joinSegs (A ++ B) = joinSegs A ++ '/' :: joinSegs B := by
  induction A with
  | nil => exact absurd rfl ha
  | cons s rest ih =>
    cases rest with
    | nil =>
      cases B with
      | nil => exact absurd rfl hb
      | cons b t => rfl
    | cons a2 as =>
      rw [List.cons_append, List.cons_append, joinSegs_cons2 s a2 (as ++ B),
        joinSegs_cons2 s a2 as, ← List.cons_append, ih (by simp)]
      simp [List.append_assoc]

/-! ## Segment normalization -/

theorem nrmAcc_append (ab : Bool) (xs ys acc : List Seg) :
    nrmAcc ab (xs ++ ys) acc = nrmAcc ab ys (nrmAcc ab xs acc) := by
  induction xs generalizing acc with
  | nil => rfl
  | cons s rest ih =>
    rw [List.cons_append]
    by_cases h1 : s = [] ∨ s = ['.']
    · rw [nrmAcc_cons_skip h1, nrmAcc_cons_skip h1, ih]
    · by_cases h2 : s = ['.', '.']
      · subst h2
        cases acc with
        | nil => rw [nrmAcc_cons_dotdot_nil, nrmAcc_cons_dotdot_nil, ih]
        | cons a as =>
          by_cases h3 : a = ['.', '.']
          · subst h3
            rw [nrmAcc_cons_dotdot_dd, nrmAcc_cons_dotdot_dd, ih]
          · rw [nrmAcc_cons_dotdot_pop h3, nrmAcc_cons_dotdot_pop h3, ih]
      · rw [nrmAcc_cons_push h1 h2, nrmAcc_cons_push h1 h2, ih]

theorem nrmAcc_no_dotdot {xs : List Seg} (acc : List Seg)
    (h : ∀ s ∈ xs, s ≠ ['.', '.']) :
    nrmAcc false xs acc = (xs.filter keepSeg).reverse ++ acc := by
  induction xs generalizing acc with
  | nil => rfl
  | cons s rest ih =>
    have hs : s ≠ ['.', '.'] := h s (List.mem_cons_self s rest)
    have hrest : ∀ x ∈ rest, x ≠ ['.', '.'] := fun x hx => h x (List.mem_cons_of_mem s hx)
    by_cases h1 : s = [] ∨ s = ['.']
    · rw [nrmAcc_cons_skip h1, ih _ hrest,
        show List.filter keepSeg (s :: rest) = List.filter keepSeg rest from by
          simp [List.filter_cons, keepSeg, h1]]
    · rw [nrmAcc_cons_push h1 hs, ih _ hrest,
        show List.filter keepSeg (s :: rest) = s :: List.filter keepSeg rest from by
          simp [List.filter_cons, keepSeg, h1]]
      rw [List.reverse_cons, List.append_assoc]
      rfl

theorem nrmAcc_false_plain {xs acc : List Seg}
    (hacc : ∀ a ∈ acc, plainSeg a) (hxs : ∀ s ∈ xs, '/' ∉ s) :
    ∀ x ∈ nrmAcc false xs acc, plainSeg x := by
  induction xs generalizing acc with
  | nil => exact hacc
  | cons s rest ih =>
    have hrest : ∀ x ∈ rest, '/' ∉ x := fun x hx => hxs x (List.mem_cons_of_mem s hx)
    by_cases h1 : s = [] ∨ s = ['.']
    · rw [nrmAcc_cons_skip h1]
      exact ih hacc hrest
    · by_cases h2 : s = ['.', '.']
      · subst h2
        cases acc with
        | nil =>
          rw [nrmAcc_cons_dotdot_nil]
          exact ih (by simp) hrest
        | cons a as =>
          have ha : plainSeg a := hacc a (List.mem_cons_self a as)
          rw [nrmAcc_cons_dotdot_pop ha.2.2.1]
          exact ih (fun x hx => hacc x (List.mem_cons_of_mem a hx)) hrest
      · rw [nrmAcc_cons_push h1 h2]
        have hsp : plainSeg s :=
          ⟨fun he => h1 (Or.inl he), fun he => h1 (Or.inr he), h2,
            hxs s (List.mem_cons_self s rest)⟩
        exact ih (fun x hx => (List.mem_cons.mp hx).elim (fun he => he ▸ hsp)
          (fun hm => hacc x hm)) hrest

theorem nrmAcc_plain_id {L : List Seg} (acc : List Seg)
    (h : ∀ s ∈ L, s ≠ [] ∧ s ≠ ['.'] ∧ s ≠ ['.', '.']) :
    nrmAcc false L acc = L.reverse ++ acc := by
  rw [nrmAcc_no_dotdot acc (fun s hs => (h s hs).2.2),
    show List.filter keepSeg L = L from List.filter_eq_self.mpr
      (fun s hs => by simp [keepSeg, (h s hs).1, (h s hs).2.1])]

theorem nrmAcc_trail_empty (ab : Bool) (xs acc : List Seg) :
    nrmAcc ab (xs ++ [[]]) acc = nrmAcc ab xs acc := by
  rw [nrmAcc_append]
  rfl

theorem isAbsoluteP_append {a : List Char} (x : List Char)
    (h : isAbsoluteP a = true) : isAbsoluteP (a ++ x) = true := by
  cases a with
  | nil => simp [isAbsoluteP] at h
  | cons c rest => exact h

theorem beginsWith_self (a : List Char) : beginsWith a a = true := by
  induction a with
  | nil => rfl
  | cons c rest ih =>
    rw [beginsWith_cons, if_pos rfl, ih]

theorem beginsWith_append (a t : List Char) : beginsWith a (a ++ t) = true := by
  induction a with
  | nil => rfl
  | cons c rest ih =>
    rw [List.cons_append, beginsWith_cons, if_pos rfl, ih]

/-! ## Canonicalization -/

theorem normSegs_split_plain (r : List Char) :
    ∀ x ∈ normSegs false (splitOnSlash r), plainSeg x := by
  intro x hx
  rw [normSegs, List.mem_reverse] at hx
  exact nrmAcc_false_plain (by simp) (fun s hs => mem_splitOnSlash_no_slash hs) x hx

theorem normSegs_wrap {core : List Seg} (h : ∀ s ∈ core, plainSeg s) :
    normSegs false ([] :: core) = core ∧
    normSegs false ([] :: (core ++ [[]])) = core := by
  constructor
  · unfold normSegs
    rw [nrmAcc_cons_skip (Or.inl rfl), nrmAcc_plain_id [] (fun s hs =>
      ⟨(h s hs).1, (h s hs).2.1, (h s hs).2.2.1⟩)]
    simp
  · unfold normSegs
    rw [nrmAcc_cons_skip (Or.inl rfl), nrmAcc_trail_empty, nrmAcc_plain_id [] (fun s hs =>
      ⟨(h s hs).1, (h s hs).2.1, (h s hs).2.2.1⟩)]
    simp

theorem isAbsoluteP_cons_slash (x : List Char) : isAbsoluteP ('/' :: x) = true := rfl

theorem resolveSegs_abs (cwd : List Char) {q : List Char} (h : isAbsoluteP q = true) :
    resolveSegs cwd q = normSegs false (splitOnSlash q) := by
  unfold resolveSegs
  rw [if_pos h]

theorem resolveSegs_normalizeP_abs (cwd : List Char) {r : List Char}
    (h : isAbsoluteP r = true) :
    resolveSegs cwd (normalizeP r) = resolveSegs cwd r := by
  have hrne : r ≠ [] := by
    cases r with
    | nil => simp [isAbsoluteP] at h
    | cons c rest => simp
  have hplain : ∀ x ∈ normSegs false (splitOnSlash r), plainSeg x := normSegs_split_plain r
  have hnos : ∀ x ∈ normSegs false (splitOnSlash r), '/' ∉ x := fun x hx => (hplain x hx).2.2.2
  rw [resolveSegs_abs cwd h]
  unfold normalizeP
  rw [if_neg hrne, h]
  dsimp only
  by_cases hb : joinSegs (normSegs (!true) (splitOnSlash r)) = []
  · rw [if_pos hb, if_pos rfl]
    have hcore : normSegs false (splitOnSlash r) = [] := by
      by_contra hne
      exact joinSegs_ne_nil hne (fun s hs => (hplain s hs).1) hb
    rw [resolveSegs_abs cwd (by decide), hcore]
    decide
  · rw [if_neg hb]
    have hcorene : normSegs false (splitOnSlash r) ≠ [] := by
      intro he
      rw [show ((!true) : Bool) = false from rfl, he] at hb
      exact hb rfl
    by_cases ht : r.getLast? = some '/'
    · rw [if_pos ht, if_pos rfl]
      rw [resolveSegs_abs cwd (isAbsoluteP_cons_slash _), splitOnSlash_cons_slash]
      rw [show (joinSegs (normSegs (!true) (splitOnSlash r)) ++ ['/']) =
          joinSegs (normSegs false (splitOnSlash r)) ++ '/' :: [] from rfl]
      rw [splitOnSlash_append, splitOnSlash_joinSegs hcorene hnos,
        show splitOnSlash ([] : List Char) = [[]] from rfl]
      exact (normSegs_wrap hplain).2
    · rw [if_neg ht, if_pos rfl]
      rw [resolveSegs_abs cwd (isAbsoluteP_cons_slash _), splitOnSlash_cons_slash]
      rw [show normSegs (!true) (splitOnSlash r) = normSegs false (splitOnSlash r) from rfl]
      rw [splitOnSlash_joinSegs hcorene hnos]
      exact (normSegs_wrap hplain).1

theorem resolveSegs_join_extend (cwd : List Char) {root n : List Char}
    (hroot : isAbsoluteP root = true) (hn : containsDotDot n = false) :
    ∃ extra, resolveSegs cwd (joinP root n) = resolveSegs cwd root ++ extra ∧
      ∀ s ∈ extra, plainSeg s := by
  have hrne : root ≠ [] := by
    cases root with
    | nil => simp [isAbsoluteP] at hroot
    | cons c rest => simp
  by_cases hne : n = []
  · subst hne
    refine ⟨[], ?_, by simp⟩
    unfold joinP
    rw [if_neg hrne, if_pos rfl, resolveSegs_normalizeP_abs cwd hroot, List.append_nil]
  · unfold joinP
    rw [if_neg hrne, if_neg hne]
    have habs : isAbsoluteP (root ++ '/' :: n) = true := isAbsoluteP_append _ hroot
    rw [resolveSegs_normalizeP_abs cwd habs, resolveSegs_abs cwd habs,
      resolveSegs_abs cwd hroot, splitOnSlash_append]
    unfold normSegs
    rw [nrmAcc_append]
    have hnod : ∀ s ∈ splitOnSlash n, s ≠ ['.', '.'] := by
      intro s hs he
      subst he
      rw [mem_splitOnSlash_dotdot hs] at hn
      exact absurd hn (by simp)
    rw [nrmAcc_no_dotdot _ hnod]
    refine ⟨(splitOnSlash n).filter keepSeg, ?_, ?_⟩
    · rw [List.reverse_append, List.reverse_reverse]
    · intro s hs
      have hmem := List.mem_filter.mp hs
      have hkp : ¬(s = [] ∨ s = ['.']) := by
        intro hor
        simp [keepSeg, hor] at hmem
      exact ⟨fun he => hkp (Or.inl he), fun he => hkp (Or.inr he), hnod s hmem.1,
        mem_splitOnSlash_no_slash hmem.1⟩

theorem beginsWith_slash_join (R E : List Seg) :
    beginsWith (if R = [] then ['/'] else '/' :: joinSegs R)
      (if R ++ E = [] then ['/'] else '/' :: joinSegs (R ++ E)) = true := by
  rcases R with _ | ⟨a, as⟩
  · rw [if_pos rfl, List.nil_append]
    rcases E with _ | ⟨e, es⟩
    · rw [if_pos rfl]
      decide
    · rw [if_neg (by simp), beginsWith_cons, if_pos rfl]
      rfl
  · rw [if_neg (by simp)]
    rcases E with _ | ⟨e, es⟩
    · rw [List.append_nil, if_neg (by simp), beginsWith_cons, if_pos rfl]
      exact beginsWith_self _
    · rw [if_neg (by simp), joinSegs_append (by simp) (by simp), beginsWith_cons,
        if_pos rfl]
      exact beginsWith_append _ _

theorem beginsWith_resolveP {cwd root p : List Char} {extra : List Seg}
    (hres : resolveSegs cwd p = resolveSegs cwd root ++ extra) :
    beginsWith (resolveP cwd root) (resolveP cwd p) = true := by
  unfold resolveP
  dsimp only
  rw [hres]
  exact beginsWith_slash_join _ _

/-! ## The validator -/

theorem beginsWith_dotdot_false_of_no_dotdot {l : List Char}
    (h : containsDotDot l = false) : beginsWith ['.', '.'] l = false := by
  rcases l with _ | ⟨c, rest⟩
  · rfl
  · rw [containsDotDot_cons] at h
    exact (Bool.or_eq_false_iff.mp h).1

theorem validate_accepts {cwd root tmpl : List Char}
    (hroot : isAbsoluteP root = true) (htne : tmpl ≠ [])
    (hn : containsDotDot (normalizeP tmpl) = false)
    (hna : isAbsoluteP (normalizeP tmpl) = false) :
    validateTemplatePath cwd root tmpl = some (joinP root (normalizeP tmpl)) := by
  unfold validateTemplatePath
  rw [if_neg htne]
  dsimp only
  rw [beginsWith_dotdot_false_of_no_dotdot hn, if_neg (by simp), hn, if_neg (by simp),
    hna, if_neg (by simp)]
  obtain ⟨extra, hex, _⟩ := resolveSegs_join_extend cwd hroot hn
  rw [beginsWith_resolveP hex, if_pos rfl]

theorem validate_sound {cwd root tmpl p : List Char}
    (hroot : isAbsoluteP root = true)
    (h : validateTemplatePath cwd root tmpl = some p) :
    ∃ extra, resolveSegs cwd p = resolveSegs cwd root ++ extra := by
  unfold validateTemplatePath at h
  by_cases h1 : tmpl = []
  · rw [if_pos h1] at h
    exact absurd h (by simp)
  · rw [if_neg h1] at h
    dsimp only at h
    by_cases h2 : beginsWith ['.', '.'] (normalizeP tmpl) = true
    · rw [if_pos h2] at h
      exact absurd h (by simp)
    · rw [if_neg h2] at h
      by_cases h3 : containsDotDot (normalizeP tmpl) = true
      · rw [if_pos h3] at h
        exact absurd h (by simp)
      · rw [if_neg h3] at h
        by_cases h4 : isAbsoluteP (normalizeP tmpl) = true
        · rw [if_pos h4] at h
          exact absurd h (by simp)
        · rw [if_neg h4] at h
          by_cases h5 : beginsWith (resolveP cwd root)
              (resolveP cwd (joinP root (normalizeP tmpl))) = true
          · rw [if_pos h5] at h
            have hp : joinP root (normalizeP tmpl) = p := Option.some.injEq _ _ ▸ h
            obtain ⟨extra, hex, _⟩ :=
              resolveSegs_join_extend cwd hroot (Bool.eq_false_iff.mpr h3)
            exact ⟨extra, hp ▸ hex⟩
          · rw [if_neg h5] at h
            exact absurd h (by simp)

/-! ## Lemmas on the escaping pipeline -/

theorem replBackslash_bs (r : Str) :
    replBackslash ('\\' :: r) = '\\' :: '\\' :: replBackslash r := by
  rw [replBackslash.eq_def]
  simp

theorem replBackslash_other {c : Char} (h : c ≠ '\\') (r : Str) :
    replBackslash (c :: r) = c :: replBackslash r := by
  rw [replBackslash.eq_def]
  simp [h]

theorem replParenL_paren (r : Str) :
    replParenL ('(' :: r) = '\\' :: '(' :: replParenL r := by
  rw [replParenL.eq_def]
  simp

theorem replParenL_other {c : Char} (h : c ≠ '(') (r : Str) :
    replParenL (c :: r) = c :: replParenL r := by
  rw [replParenL.eq_def]
  simp [h]

theorem replParenR_paren (r : Str) :
    replParenR (')' :: r) = '\\' :: ')' :: replParenR r := by
  rw [replParenR.eq_def]
  simp

theorem replParenR_other {c : Char} (h : c ≠ ')') (r : Str) :
    replParenR (c :: r) = c :: replParenR r := by
  rw [replParenR.eq_def]
  simp [h]

theorem replBackslash_no_lf {v : Str} (h : '\n' ∉ v) : '\n' ∉ replBackslash v := by
  induction v with
  | nil => simp [replBackslash]
  | cons c r ih =>
    have hc : c ≠ '\n' := fun he => h (he ▸ List.mem_cons_self c r)
    have hr : '\n' ∉ r := fun hm => h (List.mem_cons_of_mem c hm)
    by_cases hb : c = '\\'
    · subst hb
      rw [replBackslash_bs]
      intro hm
      rcases List.mem_cons.mp hm with h1 | hm2
      · exact absurd h1 (by decide)
      · rcases List.mem_cons.mp hm2 with h2 | hm3
        · exact absurd h2 (by decide)
        · exact ih hr hm3
    · rw [replBackslash_other hb]
      intro hm
      rcases List.mem_cons.mp hm with h1 | hm2
      · exact hc h1.symm
      · exact ih hr hm2

theorem replParenL_no_lf {v : Str} (h : '\n' ∉ v) : '\n' ∉ replParenL v := by
  induction v with
  | nil => simp [replParenL]
  | cons c r ih =>
    have hc : c ≠ '\n' := fun he => h (he ▸ List.mem_cons_self c r)
    have hr : '\n' ∉ r := fun hm => h (List.mem_cons_of_mem c hm)
    by_cases hb : c = '('
    · subst hb
      rw [replParenL_paren]
      intro hm
      rcases List.mem_cons.mp hm with h1 | hm2
      · exact absurd h1 (by decide)
      · rcases List.mem_cons.mp hm2 with h2 | hm3
        · exact absurd h2 (by decide)
        · exact ih hr hm3
    · rw [replParenL_other hb]
      intro hm
      rcases List.mem_cons.mp hm with h1 | hm2
      · exact hc h1.symm
      · exact ih hr hm2

theorem replParenR_no_lf {v : Str} (h : '\n' ∉ v) : '\n' ∉ replParenR v := by
  induction v with
  | nil => simp [replParenR]
  | cons c r ih =>
    have hc : c ≠ '\n' := fun he => h (he ▸ List.mem_cons_self c r)
    have hr : '\n' ∉ r := fun hm => h (List.mem_cons_of_mem c hm)
    by_cases hb : c = ')'
    · subst hb
      rw [replParenR_paren]
      intro hm
      rcases List.mem_cons.mp hm with h1 | hm2
      · exact absurd h1 (by decide)
      · rcases List.mem_cons.mp hm2 with h2 | hm3
        · exact absurd h2 (by decide)
        · exact ih hr hm3
    · rw [replParenR_other hb]
      intro hm
      rcases List.mem_cons.mp hm with h1 | hm2
      · exact hc h1.symm
      · exact ih hr hm2

theorem replNewline_id {l : Str} (h : '\n' ∉ l) : replNewline l = l := by
  induction l with
  | nil => rfl
  | cons c r ih =>
    have hc : c ≠ '\n' := fun he => h (he ▸ List.mem_cons_self c r)
    have hr : '\n' ∉ r := fun hm => h (List.mem_cons_of_mem c hm)
    by_cases hcr : c = '\r'
    · subst hcr
      cases r with
      | nil => decide
      | cons e r2 =>
        have he : e ≠ '\n' := fun hee => hr (hee ▸ List.mem_cons_self e r2)
        have step : replNewline ('\r' :: e :: r2) = '\r' :: replNewline (e :: r2) := by
          rw [replNewline.eq_def]
          simp [he]
        rw [step, ih hr]
    · have step : replNewline (c :: r) = c :: replNewline r := by
        rw [replNewline.eq_def]
        simp [hc, hcr]
      rw [step, ih hr]

theorem unescFdf_cons_plain {c : Char} {r : Str} (h1 : c ≠ '\\') (h2 : c ≠ '\r') :
    unescFdf (c :: r) = c :: unescFdf r := by
  by_cases h3 : c = '\n'
  · subst h3
    rw [unescFdf.eq_def]
    simp
  · rw [unescFdf.eq_def]
    simp [h1, h2, h3]

theorem unescFdf_esc_char {d : Char} {r : Str} (h1 : d ≠ '\n') (h2 : d ≠ '\r') :
    unescFdf ('\\' :: d :: r) = unescChar d :: unescFdf r := by
  rw [unescFdf.eq_def]
  simp [h1, h2]

theorem unesc_esc3 {v : Str} (hn : '\n' ∉ v) (hr : '\r' ∉ v) :
    unescFdf (replParenR (replParenL (replBackslash v))) = v := by
  induction v with
  | nil => rfl
  | cons c r ih =>
    have hcr : c ≠ '\r' := fun he => hr (he ▸ List.mem_cons_self c r)
    have hrn : '\n' ∉ r := fun hm => hn (List.mem_cons_of_mem c hm)
    have hrr : '\r' ∉ r := fun hm => hr (List.mem_cons_of_mem c hm)
    by_cases hb : c = '\\'
    · subst hb
      rw [replBackslash_bs, replParenL_other (by decide), replParenL_other (by decide),
        replParenR_other (by decide), replParenR_other (by decide),
        unescFdf_esc_char (by decide) (by decide),
        show unescChar '\\' = '\\' from by decide, ih hrn hrr]
    · by_cases hl : c = '('
      · subst hl
        rw [replBackslash_other (by decide), replParenL_paren,
          replParenR_other (by decide), replParenR_other (by decide),
          unescFdf_esc_char (by decide) (by decide),
          show unescChar '(' = '(' from by decide, ih hrn hrr]
      · by_cases hrp : c = ')'
        · subst hrp
          rw [replBackslash_other (by decide), replParenL_other (by decide), replParenR_paren,
            unescFdf_esc_char (by decide) (by decide),
            show unescChar ')' = ')' from by decide, ih hrn hrr]
        · rw [replBackslash_other hb, replParenL_other hl, replParenR_other hrp,
            unescFdf_cons_plain hb hcr, ih hrn hrr]

/-! ## Lemmas on the filesystem model -/

theorem fsExists_unlink_self (p : Str) (fs : FS) : fsExists p (fsUnlink p fs) = false := by
  induction fs with
  | nil => rfl
  | cons e fs ih =>
    by_cases he : e.1 = p
    · simpa [fsUnlink, fsExists, he] using ih
    · simpa [fsUnlink, fsExists, he] using ih

theorem fsExists_unlink_mono {q : Str} (p : Str) {fs : FS}
    (h : fsExists q fs = false) : fsExists q (fsUnlink p fs) = false := by
  induction fs with
  | nil => rfl
  | cons e fs ih =>
    simp only [fsExists, List.any_cons, Bool.or_eq_false_iff] at h
    by_cases he : e.1 = p
    · simpa [fsUnlink, fsExists, he] using ih h.2
    · simp only [fsUnlink, fsExists, List.filter_cons]
      simp only [he, decide_not, decide_False]
      simpa [fsUnlink, fsExists, h.1] using ih h.2

theorem fsUnlink_of_not_exists {p : Str} {fs : FS} (h : fsExists p fs = false) :
    fsUnlink p fs = fs := by
  apply List.filter_eq_self.mpr
  intro e he
  simp only [fsExists] at h
  rw [List.any_eq_false] at h
  simpa using h e he

theorem cleanup_eq_unlinks (f o : Str) (fs : FS) :
    cleanup f o fs = fsUnlink o (fsUnlink f fs) := by
  unfold cleanup
  by_cases h1 : fsExists f fs
  · rw [if_pos h1]
    by_cases h2 : fsExists o (fsUnlink f fs)
    · rw [if_pos h2]
    · rw [if_neg h2, fsUnlink_of_not_exists (Bool.eq_false_iff.mpr h2)]
  · rw [if_neg h1, fsUnlink_of_not_exists (Bool.eq_false_iff.mpr h1)]
    by_cases h2 : fsExists o fs
    · rw [if_pos h2]
    · rw [if_neg h2, fsUnlink_of_not_exists (Bool.eq_false_iff.mpr h2)]

theorem cleanup_removes_fdf (f o : Str) (fs : FS) :
    fsExists f (cleanup f o fs) = false := by
  rw [cleanup_eq_unlinks]
  exact fsExists_unlink_mono o (fsExists_unlink_self f fs)

theorem cleanup_removes_out (f o : Str) (fs : FS) :
    fsExists o (cleanup f o fs) = false := by
  rw [cleanup_eq_unlinks]
  exact fsExists_unlink_self o (fsUnlink f fs)

theorem fsRead_write_self (p c : Str) (fs : FS) : fsRead p (fsWrite p c fs) = some c := by
  simp [fsRead, fsWrite, List.find?]

theorem fsRead_unlink_ne {p q : Str} (h : p ≠ q) (fs : FS) :
    fsRead p (fsUnlink q fs) = fsRead p fs := by
  induction fs with
  | nil => rfl
  | cons e fs ih =>
    by_cases he : e.1 = q
    · have h1 : fsUnlink q (e :: fs) = fsUnlink q fs := by
        simp [fsUnlink, List.filter_cons, he]
      have hpn : ¬((fun e : Str × Str => decide (e.1 = p)) e = true) := by
        simp only [decide_eq_true_eq]
        exact fun hh => h (by rw [← hh, he])
      have h2 : fsRead p (e :: fs) = fsRead p fs := by
        simp only [fsRead]
        rw [List.find?_cons_of_neg (p := fun e : Str × Str => decide (e.1 = p)) _ hpn]
      rw [h1, ih, h2]
    · have h1 : fsUnlink q (e :: fs) = e :: fsUnlink q fs := by
        simp [fsUnlink, List.filter_cons, he]
      rw [h1]
      by_cases hp : e.1 = p
      · have hpp : (fun e : Str × Str => decide (e.1 = p)) e = true := by simp [hp]
        simp only [fsRead]
        rw [List.find?_cons_of_pos (p := fun e : Str × Str => decide (e.1 = p)) _ hpp,
          List.find?_cons_of_pos (p := fun e : Str × Str => decide (e.1 = p)) _ hpp]
      · have hpn : ¬((fun e : Str × Str => decide (e.1 = p)) e = true) := by simp [hp]
        simp only [fsRead]
        rw [List.find?_cons_of_neg (p := fun e : Str × Str => decide (e.1 = p)) _ hpn,
          List.find?_cons_of_neg (p := fun e : Str × Str => decide (e.1 = p)) _ hpn]
        exact ih

theorem fdfPathOf_ne_outPathOf (n : Nat) : fdfPathOf n ≠ outPathOf n := by
  intro h
  have e1 : fdfPathOf n =
      '/' :: 't' :: 'm' :: 'p' :: '/' :: 'd' :: 'a' :: 't' :: 'a' :: '_' ::
        ((toString n).data ++ str ".fdf") := rfl
  have e2 : outPathOf n =
      '/' :: 't' :: 'm' :: 'p' :: '/' :: 'o' :: 'u' :: 't' :: '_' ::
        ((toString n).data ++ str ".pdf") := rfl
  rw [e1, e2] at h
  simp only [List.cons.injEq] at h
  exact absurd h.2.2.2.2.2.1 (by decide)

/-! ## Claim theorems: serializer and orchestrator -/

/-- C3 counterexample: the claim asserts that un-escaping the FDF
string-literal syntax recovers every submitted value exactly, for all
combinations of backslashes, parentheses, carriage returns and line
feeds.  It fails already on the one-character value consisting of a
line feed: `buildFdf` serializes it as the escape `\r`, which a
consumer un-escapes to a carriage return, not a line feed. -/
theorem escFdf_newline_not_roundtrip : unescFdf (escFdf ['\n']) ≠ ['\n'] := by decide

/-- C3 (amended): the escaping performed by `buildFdf` round-trips
field values exactly through the FDF string-literal syntax for every
value containing backslashes and parentheses in any combination, as
long as the value contains no raw line feed or carriage return; LF and
CRLF are serialized as the `\r` escape (a carriage return), so values
containing newlines are not recovered exactly. -/
theorem escFdf_roundtrip_no_newline (v : Str) (hn : '\n' ∉ v) (hr : '\r' ∉ v) :
    unescFdf (escFdf v) = v := by
  unfold escFdf
  rw [replNewline_id (replParenR_no_lf (replParenL_no_lf (replBackslash_no_lf hn)))]
  exact unesc_esc3 hn hr

/-- Witness for C3 (amended) at the value `a\(b)`. -/
theorem escFdf_roundtrip_no_newline_witness :
    unescFdf (escFdf (str "a\\(b)")) = str "a\\(b)" :=
  escFdf_roundtrip_no_newline (str "a\\(b)") (by decide) (by decide)

/-- C9: `buildFdf` is total on field maps with absent values: an
absent (`null`/`undefined`) value is serialized as the empty string
(the line reads `/T (key) /V ()`), the key is interpolated into the
`/T` literal verbatim without any escaping, and appending such an
entry to any field map extends the body by exactly that line. -/
theorem buildFdf_absent_values (k : Str) (v : Option Str) (fields : FieldMap) :
    fdfLine k none = str "<< /T (" ++ k ++ str ") /V () >>\n" ∧
    fdfLine k v = str "<< /T (" ++ k ++ str ") /V (" ++ escFdf (v.getD []) ++ str ") >>\n" ∧
    buildFdfBody (fields ++ [(k, none)]) =
      buildFdfBody fields ++ (str "<< /T (" ++ k ++ str ") /V () >>\n") := by
  have h1 : fdfLine k none = str "<< /T (" ++ k ++ str ") /V () >>\n" := by
    unfold fdfLine
    rw [show escFdf ((none : Option Str).getD []) = [] from rfl, List.append_nil,
      List.append_assoc (str "<< /T (" ++ k)]
    exact congrArg (fun t => (str "<< /T (" ++ k) ++ t) (by decide)
  refine ⟨h1, rfl, ?_⟩
  unfold buildFdfBody
  rw [List.foldl_append]
  simp only [List.foldl_cons, List.foldl_nil]
  rw [h1]

/-- C2: on every outcome of a fill invocation — success, subprocess
launch failure, non-zero exit, output-read failure, or an exception
raised while writing the FDF — neither the intermediate data file nor
the output file exists in the filesystem state the caller observes. -/
theorem fillPdf_cleanup_total (env : FillEnv) (tmpl : Str) (data : FieldMap) (fs : FS) :
    fsExists (fdfPathOf env.now) (fillPdfNew env tmpl data fs).2.1 = false ∧
    fsExists (outPathOf env.now) (fillPdfNew env tmpl data fs).2.1 = false := by
  obtain ⟨now, writeErr, spawn, readErr⟩ := env
  cases writeErr with
  | some msg => exact ⟨cleanup_removes_fdf _ _ _, cleanup_removes_out _ _ _⟩
  | none =>
    cases spawn with
    | launchError msg => exact ⟨cleanup_removes_fdf _ _ _, cleanup_removes_out _ _ _⟩
    | exits code outContent =>
      cases outContent <;> cases code <;>
        exact ⟨cleanup_removes_fdf _ _ _, cleanup_removes_out _ _ _⟩

/-- C7: with the FDF written successfully, `fillPdf` distinguishes
exactly the three subprocess outcome classes: a launch failure rejects
with the spawn-failure error, a non-zero exit rejects with the
fill-failure error carrying that exit code, and a zero exit resolves
with the bytes read from the output artifact or rejects with the read
error. -/
theorem fillPdf_outcome_classes (env : FillEnv) (tmpl : Str) (data : FieldMap) (fs : FS)
    (hw : env.writeErr = none) :
    (∀ msg, env.spawn = .launchError msg →
      (fillPdfNew env tmpl data fs).1 = .spawnFailed (str "pdftk spawn failed: " ++ msg)) ∧
    (∀ code oc, env.spawn = .exits code oc → code ≠ 0 →
      (fillPdfNew env tmpl data fs).1 = .exitFailure code) ∧
    (∀ oc m, env.spawn = .exits 0 oc → env.readErr = some m →
      (fillPdfNew env tmpl data fs).1 = .readFailed m) ∧
    (∀ c, env.spawn = .exits 0 (some c) → env.readErr = none →
      (fillPdfNew env tmpl data fs).1 = .ok c) := by
  obtain ⟨now, writeErr, spawn, readErr⟩ := env
  cases hw
  refine ⟨?_, ?_, ?_, ?_⟩
  · intro msg hsp
    cases hsp
    rfl
  · intro code oc hsp hc
    cases hsp
    cases code with
    | zero => exact absurd rfl hc
    | succ k => cases oc <;> rfl
  · intro oc m hsp hre
    cases hsp
    cases hre
    cases oc <;> rfl
  · intro c hsp hre
    cases hsp
    cases hre
    dsimp only [fillPdfNew, fillTempPaths]
    rw [fsRead_write_self, if_neg (show ¬((0 : Nat) ≠ 0) by decide)]

/-- Witness for C7: a concrete successful invocation resolves with the
output artifact's bytes. -/
theorem fillPdf_outcome_classes_witness :
    (fillPdfNew ⟨5, none, .exits 0 (some (str "PDFBYTES")), none⟩
      (str "/templates/f.pdf") [] []).1 = .ok (str "PDFBYTES") :=
  (fillPdf_outcome_classes ⟨5, none, .exits 0 (some (str "PDFBYTES")), none⟩
    (str "/templates/f.pdf") [] [] rfl).2.2.2 (str "PDFBYTES") rfl rfl

/-- C10: the original and the revised `fillPdf` agree on the success
path: when the FDF write succeeds, the subprocess exits zero having
produced the output file, and the read succeeds, both versions return
the same result (the same PDF bytes — both serialize the same field
map with the one shared `buildFdf`), leave the same filesystem state,
and neither temporary file remains. -/
theorem fillPdf_orig_new_equiv_success (env : FillEnv) (tmpl : Str) (data : FieldMap)
    (fs : FS) (c : Str) (hw : env.writeErr = none) (hre : env.readErr = none)
    (hs : env.spawn = .exits 0 (some c)) :
    fillPdfOrig env tmpl data fs = fillPdfNew env tmpl data fs ∧
    (fillPdfNew env tmpl data fs).1 = .ok c ∧
    fsExists (fdfPathOf env.now) (fillPdfNew env tmpl data fs).2.1 = false ∧
    fsExists (outPathOf env.now) (fillPdfNew env tmpl data fs).2.1 = false := by
  obtain ⟨now, writeErr, spawn, readErr⟩ := env
  cases hw
  cases hre
  cases hs
  refine ⟨?_, ?_, cleanup_removes_fdf _ _ _, cleanup_removes_out _ _ _⟩
  · dsimp only [fillPdfOrig, fillPdfNew, fillTempPaths]
    rw [if_neg (show ¬((0 : Nat) ≠ 0) by decide), if_neg (show ¬((0 : Nat) ≠ 0) by decide),
      fsRead_unlink_ne (Ne.symm (fdfPathOf_ne_outPathOf now)), fsRead_write_self,
      cleanup_eq_unlinks]
  · dsimp only [fillPdfNew, fillTempPaths]
    rw [fsRead_write_self, if_neg (show ¬((0 : Nat) ≠ 0) by decide)]

/-- Witness for C10 at a concrete environment and field map. -/
theorem fillPdf_orig_new_equiv_success_witness :
    fillPdfOrig ⟨7, none, .exits 0 (some (str "OUT")), none⟩ (str "/templates/f.pdf")
        [(str "Name", some (str "O'Brien (Station 3)"))] [] =
      fillPdfNew ⟨7, none, .exits 0 (some (str "OUT")), none⟩ (str "/templates/f.pdf")
        [(str "Name", some (str "O'Brien (Station 3)"))] [] :=
  (fillPdf_orig_new_equiv_success ⟨7, none, .exits 0 (some (str "OUT")), none⟩
    (str "/templates/f.pdf") [(str "Name", some (str "O'Brien (Station 3)"))] []
    (str "OUT") rfl rfl rfl).1

/-- C4 (code bug): the ephemeral file names of a fill invocation are a
function of the wall clock (`Date.now()`) alone — any two invocations
that begin within the same millisecond receive identical intermediate
and output paths, contradicting the required per-invocation
uniqueness. -/
theorem fillTempPaths_clock_only (e1 e2 : FillEnv) (h : e1.now = e2.now) :
    fillTempPaths e1 = fillTempPaths e2 := by
  unfold fillTempPaths
  rw [h]

/-- Witness for C4: two distinct invocations in the same millisecond
share both temporary paths. -/
theorem fillTempPaths_clock_only_witness :
    fillTempPaths ⟨1700000000000, none, .exits 0 none, none⟩ =
      fillTempPaths ⟨1700000000000, some (str "disk full"), .launchError (str "ENOENT"),
        none⟩ :=
  fillTempPaths_clock_only _ _ rfl

/-- C8: a request to the field-listing or fill endpoint whose template
parameter is missing (or empty, which the falsy check also catches) or
fails containment validation receives a 400 client error with an empty
effect trace: no subprocess is spawned and no temporary file is
written, and the filesystem is untouched. -/
theorem handlers_reject_before_io (cwd root : Str) (template : Option Str)
    (tmplExists : Bool) (extractRes : Option (List Str)) (env : FillEnv)
    (body : FieldMap) (fs : FS)
    (h : template = none ∨ ∃ t, template = some t ∧
      (t = [] ∨ validateTemplatePath cwd root t = none)) :
    fieldsHandler cwd root template tmplExists extractRes = (400, []) ∧
    submitHandler cwd root template tmplExists env body fs = (400, fs, []) := by
  rcases h with h | ⟨t, ht, h2⟩
  · subst h
    exact ⟨rfl, rfl⟩
  · subst ht
    by_cases hte : t = []
    · subst hte
      exact ⟨rfl, rfl⟩
    · rcases h2 with h2 | h2
      · exact absurd h2 hte
      · constructor
        · dsimp only [fieldsHandler]
          rw [if_neg hte, h2]
        · dsimp only [submitHandler]
          rw [if_neg hte, h2]

/-- Witness for C8: the traversal attempt `../x` is rejected by both
handlers with no effects. -/
theorem handlers_reject_before_io_witness :
    fieldsHandler (str "/cwd") (str "/templates") (some (str "../x")) true (some []) =
      (400, []) ∧
    submitHandler (str "/cwd") (str "/templates") (some (str "../x")) true
      ⟨0, none, .exits 0 none, none⟩ [] [] = (400, [], []) :=
  handlers_reject_before_io (str "/cwd") (str "/templates") (some (str "../x")) true
    (some []) ⟨0, none, .exits 0 none, none⟩ [] []
    (Or.inr ⟨str "../x", rfl, Or.inr (by decide)⟩)

/-! ## Claim theorems: path validation -/

/-- C1: for every candidate string, if `validateTemplatePath` accepts
(returns a path `p`), then the canonical resolution of `p` extends the
canonical resolution of the root by whole path segments — it equals
the root's resolution (empty extension) or is a true path-segment
descendant of it.  A sibling directory that merely shares a raw string
prefix with the root (such as `/root-evil` against `/root`) has a
different first segment and therefore can never be accepted.  The root
is assumed absolute, as in the deployed configuration. -/
theorem validateTemplatePath_containment (cwd root tmpl p : List Char)
    (hroot : isAbsoluteP root = true)
    (h : validateTemplatePath cwd root tmpl = some p) :
    ∃ extra, resolveSegs cwd p = resolveSegs cwd root ++ extra :=
  validate_sound hroot h

/-- Witness for C1 at the accepted candidate `forms/fire.pdf`. -/
theorem validateTemplatePath_containment_witness :
    ∃ extra, resolveSegs (str "/cwd") (str "/templates/forms/fire.pdf") =
      resolveSegs (str "/cwd") (str "/templates") ++ extra :=
  validateTemplatePath_containment (str "/cwd") (str "/templates") (str "forms/fire.pdf")
    (str "/templates/forms/fire.pdf") (by decide) (by decide)

/-- C5 (amended): for candidates whose lexical normalization yields a
relative path with no leading parent segment and containing no `..`
substring anywhere, `validateTemplatePath` accepts and returns exactly
the root joined with the normalized candidate.  (The claim's original
form also admitted `..` inside a longer filename token such as
`file..pdf`; the code rejects any normalized path containing `..`.) -/
theorem validateTemplatePath_accepts_normalized (cwd root tmpl : List Char)
    (hroot : isAbsoluteP root = true) (htne : tmpl ≠ [])
    (hn : containsDotDot (normalizeP tmpl) = false)
    (hna : isAbsoluteP (normalizeP tmpl) = false) :
    validateTemplatePath cwd root tmpl = some (joinP root (normalizeP tmpl)) :=
  validate_accepts hroot htne hn hna

/-- Witness for C5 (amended) at the candidate `forms/./fire.pdf`. -/
theorem validateTemplatePath_accepts_normalized_witness :
    validateTemplatePath (str "/cwd") (str "/templates") (str "forms/./fire.pdf") =
      some (joinP (str "/templates") (normalizeP (str "forms/./fire.pdf"))) :=
  validateTemplatePath_accepts_normalized (str "/cwd") (str "/templates")
    (str "forms/./fire.pdf") (by decide) (by decide) (by decide) (by decide)

/-- C5 counterexample: `file..pdf` normalizes to itself, is relative,
and has no leading parent segment — by the claim it should be accepted
and resolve inside the root — yet the validator rejects it, because
the code refuses any normalized path containing the substring `..`. -/
theorem validateTemplatePath_rejects_inner_dotdot :
    normalizeP (str "file..pdf") = str "file..pdf" ∧
    isAbsoluteP (normalizeP (str "file..pdf")) = false ∧
    beginsWith ['.', '.'] (normalizeP (str "file..pdf")) = false ∧
    validateTemplatePath (str "/cwd") (str "/templates") (str "file..pdf") = none := by
  refine ⟨by decide, by decide, by decide, by decide⟩

/-- C6: the five specified edge cases of `validateTemplatePath`, for
every absolute root: the empty string is rejected; `a/../b` is
accepted and resolves to `root/b`; `../x` is rejected; `/etc/passwd`
is rejected; `a/../../b` is rejected. -/
theorem validateTemplatePath_edge_cases (cwd root : List Char)
    (hroot : isAbsoluteP root = true) :
    validateTemplatePath cwd root (str "") = none ∧
    validateTemplatePath cwd root (str "a/../b") = some (joinP root (str "b")) ∧
    validateTemplatePath cwd root (str "../x") = none ∧
    validateTemplatePath cwd root (str "/etc/passwd") = none ∧
    validateTemplatePath cwd root (str "a/../../b") = none := by
  refine ⟨rfl, ?_, rfl, rfl, rfl⟩
  have h := @validate_accepts cwd root (str "a/../b") hroot
    (by decide) (by decide) (by decide)
  rw [show normalizeP (str "a/../b") = str "b" from by decide] at h
  exact h

/-- Witness for C6 at the concrete root `/templates`. -/
theorem validateTemplatePath_edge_cases_witness :
    validateTemplatePath (str "/cwd") (str "/templates") (str "") = none ∧
    validateTemplatePath (str "/cwd") (str "/templates") (str "a/../b") =
      some (joinP (str "/templates") (str "b")) ∧
    validateTemplatePath (str "/cwd") (str "/templates") (str "../x") = none ∧
    validateTemplatePath (str "/cwd") (str "/templates") (str "/etc/passwd") = none ∧
    validateTemplatePath (str "/cwd") (str "/templates") (str "a/../../b") = none :=
  validateTemplatePath_edge_cases (str "/cwd") (str "/templates") (by decide)

end NatsecInspector
